import Mathlib

/-!
Verification of the trending-news feed aggregator
(`src/tranding-news/app/api/trending/route.ts`).

The endpoint fetches a fixed list of RSS feeds, normalizes each entry into a
uniform article record (title, link, pubDate, channel, contentSnippet,
categories, image) and returns a mapping from source name to the first ten
normalized entries; any fetch/parse exception aborts the whole batch with an
HTTP 500 carrying the error message.

JavaScript strings are modelled as Lean `String` (lists of characters);
regular-expression scans are modelled by explicit character-list scanners that
mirror the engine's leftmost / greedy semantics for the two regexes in the
source.  JavaScript truthiness of the `||` chains (where `undefined` and `""`
both fall through) is modelled by `jsOrStr` / `jsOrOpt`; the nullish
`??` defaulting is `Option.getD`.
-/

namespace TrendingNews

/-- The double-quote character (U+0022), one of the two quote delimiters the
image regex accepts. -/
def dquote : Char := Char.ofNat 34

/-- The single-quote character (U+0027), the other quote delimiter. -/
def squote : Char := Char.ofNat 39

/-- The character class of the regex quote delimiters. -/
def isQuoteB (c : Char) : Bool := c == dquote || c == squote

/-- One entry of the hardcoded `FEEDS` array: a display name and a fetch URL. -/
structure FeedConfig where
  name : String
  url : String
deriving DecidableEq, Repr

/-- The runtime shape of `item.categories` after `rss-parser`: JavaScript is
untyped here, so the value may be an array of strings, a single string, absent
(`undefined`), or some other value entirely (`other`). -/
inductive CatValue where
  | absent : CatValue
  | str : String → CatValue
  | list : List String → CatValue
  | other : CatValue
deriving DecidableEq, Repr

/-- One upstream feed item as the route's code reads it: every field access in
the source (`item.title`, `item.link`, `item.pubDate`, `(item as any).creator`,
`(item as any).contentEncoded`, `item.contentSnippet`,
`(item as any)['content:encoded']` — modelled as `contentColon` —,
`(item as any).description`, `item.categories`) gets one optional field. -/
structure RawItem where
  title : Option String := none
  link : Option String := none
  pubDate : Option String := none
  creator : Option String := none
  contentEncoded : Option String := none
  contentSnippet : Option String := none
  contentColon : Option String := none
  description : Option String := none
  categories : CatValue := CatValue.absent
deriving DecidableEq, Repr

/-- One parsed feed document, with the channel-level data the route reads:
`(parsed as any).title`, `(parsed as any).image?.url` (collapsed to one
optional string `imageUrl`: `none` when `image` or `image.url` is missing),
`(parsed as any).description`, and the ordered item list. -/
structure ParsedFeed where
  title : Option String := none
  imageUrl : Option String := none
  description : Option String := none
  items : List RawItem := []
deriving DecidableEq, Repr

/-- The normalized article record returned to clients (`FeedItem` in the
source). -/
structure FeedItem where
  title : String
  link : String
  pubDate : String
  channel : String
  contentSnippet : String
  categories : List String
  image : Option String
deriving DecidableEq, Repr

/-- The route's response: `Response.json({ feeds: results })` on success, or
`Response.json({ error: e.message }, { status: 500 })` on the first thrown
error.  The results object is an association list because JavaScript object
iteration follows insertion order for string keys. -/
inductive ApiResponse where
  | ok : List (String × List FeedItem) → ApiResponse
  | err : String → ApiResponse
deriving DecidableEq, Repr

/-- HTTP status of a response: 200 for the success shape, 500 for the error
shape. -/
def ApiResponse.status : ApiResponse → Nat
  | ApiResponse.ok _ => 200
  | ApiResponse.err _ => 500

/-- JavaScript `a || b` where `a` is an optional string and the result is used
as a string: `undefined` and `""` are falsy and fall through to `b`. -/
def jsOrStr (a : Option String) (b : String) : String :=
  match a with
  | some s => if s = "" then b else s
  | none => b

/-- JavaScript `a || b` where both sides are optional strings: `undefined` and
`""` are falsy and fall through to `b`. -/
def jsOrOpt (a b : Option String) : Option String :=
  match a with
  | some s => if s = "" then b else some s
  | none => b

/-- The literal head of the image regex `/<img [^>]*src=["']([^"']+)["']/i`,
lower-cased for case-insensitive comparison. -/
def imgPat : List Char := "<img ".data

/-- The literal `src=` part of the image regex, lower-cased. -/
def srcPat : List Char := "src=".data

/-- Case-insensitive literal prefix test: `pat` is given lower-case, each
input character is lower-cased before comparison (ASCII case folding, which
agrees with the JavaScript `i` flag on the ASCII literals of this regex). -/
def startsWithCI : List Char → List Char → Bool
  | [], _ => true
  | _ :: _, [] => false
  | p :: ps, c :: cs => c.toLower == p && startsWithCI ps cs

/-- The regex character class `[^"']`. -/
def notQuote (c : Char) : Bool := !(isQuoteB c)

/-- Match `src=["']([^"']+)["']` at the head of `l`, returning the capture.
The capture `[^"']+` is the maximal quote-free run after the opening quote;
the character ending that run must exist and is necessarily a quote. -/
def matchSrcAt (l : List Char) : Option (List Char) :=
  if startsWithCI srcPat l then
    match l.drop 4 with
    | [] => none
    | q1 :: rest =>
      if isQuoteB q1 then
        match rest.dropWhile notQuote with
        | [] => none
        | _ :: _ =>
          if (rest.takeWhile notQuote).isEmpty then none
          else some (rest.takeWhile notQuote)
      else none
  else none

/-- Greedy search for the `[^>]*` gap of the image regex: try the longest
admissible gap first (`k` characters skipped), backtracking down to the empty
gap, as the regex engine does. -/
def gapSearch (l : List Char) : Nat → Option (List Char)
  | 0 => matchSrcAt l
  | k + 1 =>
    match matchSrcAt (l.drop (k + 1)) with
    | some u => some u
    | none => gapSearch l k

/-- Try the whole image regex at the head of `l`: the literal `<img ` (case
insensitive), then a greedy run of non-`>` characters, then the `src=` part. -/
def tryMatchAt (l : List Char) : Option (List Char) :=
  if startsWithCI imgPat l then
    let body := l.drop 5
    gapSearch body (body.takeWhile (fun c => c ≠ '>')).length
  else none

/-- Leftmost search of the image regex: try every start position from the
left, returning the first position's capture. -/
def findImg : List Char → Option (List Char)
  | [] => none
  | c :: rest =>
    match tryMatchAt (c :: rest) with
    | some u => some u
    | none => findImg rest

/-- `extractImage` from the source: `undefined` (and, by JavaScript
truthiness of `!html`, the empty string) give `undefined`; otherwise the
capture of `html.match(/<img [^>]*src=["']([^"']+)["']/i)`, or `undefined`
when there is no match. -/
def extractImage : Option String → Option String
  | none => none
  | some s => if s = "" then none else (findImg s.data).map String.mk

/-- Character scan implementing the global replace
`desc.replace(/<\/?[^>]+(>|$)/g, "")`.  In copy mode (`inTag = false`) a `<`
that is immediately followed by `>` (or is the last character) has no
nonempty `[^>]+` body and survives; any other `<` starts a match that deletes
up to and including the next `>` (or to the end of the string, via `$`).
`/` needs no special care: `\/?[^>]+` accepts exactly the nonempty `>`-free
runs, `/` itself being a `[^>]` character. -/
def stripTagsGo : Bool → List Char → List Char
  | true, [] => []
  | true, c :: rest =>
    if c = '>' then stripTagsGo false rest else stripTagsGo true rest
  | false, [] => []
  | false, c :: rest =>
    if c = '<' then
      match rest with
      | [] => ['<']
      | d :: _ => if d = '>' then '<' :: stripTagsGo false rest else stripTagsGo true rest
    else c :: stripTagsGo false rest

/-- The HTML-stripping replace applied to the resolved description. -/
def stripTags (l : List Char) : List Char := stripTagsGo false l

/-- The categories normalization: an array is kept as-is, a single string is
wrapped, anything else becomes the empty list. -/
def normCats : CatValue → List String
  | CatValue.list l => l
  | CatValue.str s => [s]
  | CatValue.absent => []
  | CatValue.other => []

/-- The resolved description string `desc`:
`contentEncoded || contentSnippet || item['content:encoded'] || description
|| ""` with JavaScript truthiness. -/
def rawDesc (item : RawItem) : String :=
  jsOrStr item.contentEncoded
    (jsOrStr item.contentSnippet
      (jsOrStr item.contentColon
        (jsOrStr item.description "")))

/-- The channel-level fallback image:
`(parsed as any).image?.url || extractImage((parsed as any).description)`. -/
def channelImage (parsed : ParsedFeed) : Option String :=
  jsOrOpt parsed.imageUrl (extractImage parsed.description)

/-- The per-entry normalization (the body of the `.map(item => ...)` in the
route). -/
def articleOf (cfg : FeedConfig) (parsed : ParsedFeed) (item : RawItem) : FeedItem :=
  let desc := rawDesc item
  { title := item.title.getD ""
    link := item.link.getD ""
    pubDate := item.pubDate.getD ""
    channel := jsOrStr item.creator (jsOrStr parsed.title cfg.name)
    contentSnippet := String.mk ((stripTags desc.data).take 225 ++ "...".data)
    categories := normCats item.categories
    image := jsOrOpt (extractImage (some desc))
      (jsOrOpt (extractImage item.contentSnippet) (channelImage parsed)) }

/-- One source's bucket: `parsed.items.slice(0, 10).map(item => ...)`. -/
def processFeed (cfg : FeedConfig) (parsed : ParsedFeed) : List FeedItem :=
  (parsed.items.take 10).map (articleOf cfg parsed)

/-- The hardcoded `FEEDS` configuration array. -/
def FEEDS : List FeedConfig :=
  [ { name := "Google News", url := "https://news.google.com/rss?hl=en-US&gl=US&ceid=US:en" },
    { name := "TechCrunch", url := "https://techcrunch.com/feed/" },
    { name := "BBC World", url := "http://feeds.bbci.co.uk/news/world/rss.xml" },
    { name := "Hacker News", url := "https://hnrss.org/frontpage" },
    { name := "The Verge", url := "https://www.theverge.com/rss/index.xml" },
    { name := "Wired", url := "https://www.wired.com/feed/rss" },
    { name := "Engadget", url := "https://www.engadget.com/rss.xml" },
    { name := "Kaundal VIP", url := "https://kaundal.vip/feed/" } ]

/-- JavaScript object keyed assignment `results[key] = v` on a string-keyed
object: an existing key keeps its insertion position and gets the new value,
a new key is appended. -/
def insertOrUpdate (m : List (String × List FeedItem)) (k : String)
    (v : List FeedItem) : List (String × List FeedItem) :=
  if m.any (fun p => p.1 = k) then
    m.map (fun p => if p.1 = k then (k, v) else p)
  else m ++ [(k, v)]

/-- The `for (const feed of FEEDS)` loop: fetch/parse each source in order
(the outside world is a function from URL to parsed feed or thrown error
message) and fill the results object; the first thrown error aborts the
loop. -/
def runFeeds (fetch : String → Except String ParsedFeed) :
    List FeedConfig → List (String × List FeedItem) →
    Except String (List (String × List FeedItem))
  | [], acc => Except.ok acc
  | f :: rest, acc =>
    match fetch f.url with
    | Except.error e => Except.error e
    | Except.ok parsed =>
      runFeeds fetch rest (insertOrUpdate acc f.name (processFeed f parsed))

/-- The `GET` handler: run the loop inside `try`; a thrown error is caught
and becomes the 500 response carrying the error's message. -/
def GET (fetch : String → Except String ParsedFeed) : ApiResponse :=
  match runFeeds fetch FEEDS [] with
  | Except.ok res => ApiResponse.ok res
  | Except.error e => ApiResponse.err e

/-! Specification-side definitions: predicates the theorems are stated with,
and the result the loop is proved to produce when every fetch succeeds. -/

/-- The description priority chain as the spec words it: explicit
full-content field, else plain summary field, else description field, else
the empty string ("present" read as JavaScript-truthy, i.e. non-empty, which
is how the `||` chain treats the fields). -/
def specDescriptionChain (item : RawItem) : String :=
  jsOrStr item.contentEncoded
    (jsOrStr item.contentSnippet
      (jsOrStr item.description ""))

/-- The bucket list the loop produces when every fetch succeeds: one pair per
configured source, in configuration order. -/
def successBuckets (fetch : String → Except String ParsedFeed)
    (feeds : List FeedConfig) : List (String × List FeedItem) :=
  feeds.map fun f =>
    (f.name,
      match fetch f.url with
      | Except.ok p => processFeed f p
      | Except.error _ => [])

/-- `m` occurs as a contiguous substring of `l`. -/
def HasSub (m l : List Char) : Prop := ∃ a b, l = a ++ m ++ b

/-- `l` ends with `m`. -/
def EndsWithL (m l : List Char) : Prop := ∃ a, l = a ++ m

/-- Every occurrence of the character `<` in `l` is immediately followed by
`>` or is the last character. -/
def LtOk (l : List Char) : Prop :=
  ∀ i, l[i]? = some '<' → l[i + 1]? = some '>' ∨ l[i + 1]? = none

/-- Declarative reading of the `src=["']([^"']+)["']` tail of the image regex
at the head of `l`, capturing `u`: a case-insensitive `src=` literal, an
opening quote, a nonempty quote-free capture, a closing quote. -/
def srcOccAt (l u : List Char) : Prop :=
  ∃ sm q1 q2 post,
    l = sm ++ q1 :: (u ++ q2 :: post) ∧
    sm.map Char.toLower = srcPat ∧
    isQuoteB q1 = true ∧ isQuoteB q2 = true ∧
    u ≠ [] ∧ ∀ c ∈ u, isQuoteB c = false

/-- Declarative reading of the whole image regex at the head of `l`,
capturing `u`: a case-insensitive `<img ` literal, a run of non-`>`
characters, then the `src=` tail. -/
def imgOccAt (l u : List Char) : Prop :=
  ∃ tag gap rest,
    l = tag ++ gap ++ rest ∧
    tag.map Char.toLower = imgPat ∧
    (∀ c ∈ gap, c ≠ '>') ∧
    srcOccAt rest u

/-- The first configured source, used to instantiate the loop theorems. -/
def gnews : FeedConfig :=
  { name := "Google News", url := "https://news.google.com/rss?hl=en-US&gl=US&ceid=US:en" }

/-! Helper lemmas. -/

theorem matchSrcAt_ne_nil {l u : List Char} (h : matchSrcAt l = some u) : u ≠ [] := by
  unfold matchSrcAt at h
  split at h
  · split at h
    · exact absurd h (by simp)
    · split at h
      · split at h
        · exact absurd h (by simp)
        · split at h
          · exact absurd h (by simp)
          · rename_i hemp
            cases h
            simpa using hemp
      · exact absurd h (by simp)
  · exact absurd h (by simp)

theorem gapSearch_ne_nil {l u : List Char} {n : Nat} (h : gapSearch l n = some u) : u ≠ [] := by
  induction n with
  | zero => exact matchSrcAt_ne_nil h
  | succ n ih =>
    unfold gapSearch at h
    split at h
    · rename_i u' heq
      cases h
      exact matchSrcAt_ne_nil heq
    · exact ih h

theorem tryMatchAt_ne_nil {l u : List Char} (h : tryMatchAt l = some u) : u ≠ [] := by
  unfold tryMatchAt at h
  split at h
  · exact gapSearch_ne_nil h
  · exact absurd h (by simp)

theorem findImg_ne_nil {l u : List Char} (h : findImg l = some u) : u ≠ [] := by
  induction l with
  | nil => exact absurd h (by simp [findImg])
  | cons c rest ih =>
    unfold findImg at h
    split at h
    · rename_i u' heq
      cases h
      exact tryMatchAt_ne_nil heq
    · exact ih h

theorem extractImage_ne_empty {o : Option String} {s : String}
    (h : extractImage o = some s) : s ≠ "" := by
  cases o with
  | none => exact absurd h (by simp [extractImage])
  | some t =>
    simp only [extractImage] at h
    split at h
    · exact absurd h (by simp)
    · cases hf : findImg t.data with
      | none => rw [hf] at h; exact absurd h (by simp)
      | some u =>
        rw [hf] at h
        simp at h
        intro hc
        apply findImg_ne_nil hf
        have hdata := congrArg String.data (h.trans hc)
        simpa using hdata

theorem jsOrOpt_eq_empty (a b : Option String) (h : jsOrOpt a b = some "") :
    b = some "" := by
  unfold jsOrOpt at h
  split at h
  · rename_i s
    split at h
    · exact h
    · rename_i hs
      exact absurd (Option.some.inj h) hs
  · exact h

theorem insertOrUpdate_of_not_mem (m : List (String × List FeedItem)) (k : String)
    (v : List FeedItem) (h : ∀ pr ∈ m, pr.1 ≠ k) :
    insertOrUpdate m k v = m ++ [(k, v)] := by
  unfold insertOrUpdate
  have hc : (m.any fun p => p.1 = k) = false := by
    rw [List.any_eq_false]
    intro p hp
    simp [h p hp]
  rw [hc]
  simp

theorem runFeeds_all_ok (fetch : String → Except String ParsedFeed) :
    ∀ (feeds : List FeedConfig) (acc : List (String × List FeedItem)),
    (∀ g ∈ feeds, ∃ p, fetch g.url = Except.ok p) →
    (∀ g ∈ feeds, ∀ pr ∈ acc, pr.1 ≠ g.name) →
    (feeds.map FeedConfig.name).Nodup →
    runFeeds fetch feeds acc = Except.ok (acc ++ successBuckets fetch feeds) := by
  intro feeds
  induction feeds with
  | nil => intro acc _ _ _; simp [runFeeds, successBuckets]
  | cons f rest ih =>
    intro acc hall hdisj hnd
    obtain ⟨p, hp⟩ := hall f (List.mem_cons_self f rest)
    have hins : insertOrUpdate acc f.name (processFeed f p) =
        acc ++ [(f.name, processFeed f p)] :=
      insertOrUpdate_of_not_mem _ _ _ (hdisj f (List.mem_cons_self f rest))
    have hnd' : (rest.map FeedConfig.name).Nodup := by
      have := hnd
      simp only [List.map_cons, List.nodup_cons] at this
      exact this.2
    have hnotin : f.name ∉ rest.map FeedConfig.name := by
      have := hnd
      simp only [List.map_cons, List.nodup_cons] at this
      exact this.1
    have hdisj' : ∀ g ∈ rest, ∀ pr ∈ acc ++ [(f.name, processFeed f p)], pr.1 ≠ g.name := by
      intro g hg pr hpr
      rcases List.mem_append.mp hpr with hpr | hpr
      · exact hdisj g (List.mem_cons_of_mem f hg) pr hpr
      · have hpr' : pr = (f.name, processFeed f p) := by simpa using hpr
        subst hpr'
        show f.name ≠ g.name
        intro he
        apply hnotin
        rw [he]
        exact List.mem_map_of_mem FeedConfig.name hg
    have hrest := ih (acc ++ [(f.name, processFeed f p)])
      (fun g hg => hall g (List.mem_cons_of_mem f hg)) hdisj' hnd'
    calc runFeeds fetch (f :: rest) acc
        = runFeeds fetch rest (insertOrUpdate acc f.name (processFeed f p)) := by
          simp only [runFeeds, hp]
      _ = Except.ok ((acc ++ [(f.name, processFeed f p)]) ++ successBuckets fetch rest) := by
          rw [hins, hrest]
      _ = Except.ok (acc ++ successBuckets fetch (f :: rest)) := by
          simp [successBuckets, hp, List.append_assoc]

theorem lookup_successBuckets (fetch : String → Except String ParsedFeed) :
    ∀ (feeds : List FeedConfig), (feeds.map FeedConfig.name).Nodup →
    ∀ f ∈ feeds, ∀ parsed, fetch f.url = Except.ok parsed →
    List.lookup f.name (successBuckets fetch feeds) = some (processFeed f parsed) := by
  intro feeds
  induction feeds with
  | nil => intro _ f hf; exact absurd hf (List.not_mem_nil f)
  | cons g rest ih =>
    intro hnd f hf parsed hok
    rcases List.mem_cons.mp hf with rfl | hf'
    · simp [successBuckets, List.lookup, hok]
    · have hne : f.name ≠ g.name := by
        intro he
        have h1 : g.name ∈ rest.map FeedConfig.name :=
          he ▸ List.mem_map_of_mem FeedConfig.name hf'
        have h2 : g.name ∉ rest.map FeedConfig.name := by
          have := hnd
          simp only [List.map_cons, List.nodup_cons] at this
          exact this.1
        exact h2 h1
      have hb : (f.name == g.name) = false := beq_eq_false_iff_ne.mpr hne
      have hnd' : (rest.map FeedConfig.name).Nodup := by
        have := hnd
        simp only [List.map_cons, List.nodup_cons] at this
        exact this.2
      have hskip : List.lookup f.name (successBuckets fetch (g :: rest)) =
          List.lookup f.name (successBuckets fetch rest) := by
        simp [successBuckets, List.lookup, hb]
      rw [hskip]
      exact ih hnd' f hf' parsed hok

theorem runFeeds_err (fetch : String → Except String ParsedFeed) :
    ∀ (feeds : List FeedConfig) (acc : List (String × List FeedItem)),
    (∃ f ∈ feeds, ∃ m, fetch f.url = Except.error m) →
    ∃ m, runFeeds fetch feeds acc = Except.error m ∧
      ∃ f ∈ feeds, fetch f.url = Except.error m := by
  intro feeds
  induction feeds with
  | nil =>
    intro acc h
    obtain ⟨f, hf, _⟩ := h
    exact absurd hf (List.not_mem_nil f)
  | cons g rest ih =>
    intro acc hex
    cases hg : fetch g.url with
    | error m =>
      exact ⟨m, by simp only [runFeeds, hg], g, List.mem_cons_self g rest, hg⟩
    | ok p =>
      have hex' : ∃ f ∈ rest, ∃ m, fetch f.url = Except.error m := by
        obtain ⟨f, hf, m, hm⟩ := hex
        rcases List.mem_cons.mp hf with rfl | hf'
        · rw [hg] at hm
          exact absurd hm (by simp)
        · exact ⟨f, hf', m, hm⟩
      obtain ⟨m, hrun, f, hf, hm⟩ := ih (insertOrUpdate acc g.name (processFeed g p)) hex'
      exact ⟨m, by simp only [runFeeds, hg]; exact hrun, f, List.mem_cons_of_mem g hf, hm⟩

/-! Claim theorems. -/

/-- C6: for every entry, a list-valued categories field is kept unchanged, a
single string is wrapped into a one-element list, and an absent or
other-typed value yields the empty list. -/
theorem c6_categories_normalization (cfg : FeedConfig) (parsed : ParsedFeed) (item : RawItem) :
    (∀ l, item.categories = CatValue.list l → (articleOf cfg parsed item).categories = l) ∧
    (∀ s, item.categories = CatValue.str s → (articleOf cfg parsed item).categories = [s]) ∧
    (item.categories = CatValue.absent → (articleOf cfg parsed item).categories = []) ∧
    (item.categories = CatValue.other → (articleOf cfg parsed item).categories = []) := by
  refine ⟨fun l h => ?_, fun s h => ?_, fun h => ?_, fun h => ?_⟩ <;>
    simp [articleOf, h, normCats]

/-- C6 witness: the three concrete cases of spec property P3. -/
theorem c6_witness :
    (articleOf gnews {} ({ categories := CatValue.str "Tech" } : RawItem)).categories
      = ["Tech"] ∧
    (articleOf gnews {} ({ categories := CatValue.list ["Tech", "World"] } : RawItem)).categories
      = ["Tech", "World"] ∧
    (articleOf gnews {} ({ categories := CatValue.absent } : RawItem)).categories = [] :=
  ⟨(c6_categories_normalization gnews {} { categories := CatValue.str "Tech" }).2.1 "Tech" rfl,
   (c6_categories_normalization gnews {} { categories := CatValue.list ["Tech", "World"] }).1
     ["Tech", "World"] rfl,
   (c6_categories_normalization gnews {} { categories := CatValue.absent }).2.2.1 rfl⟩

/-- C7: the channel attribution prefers the entry's creator field (when
JavaScript-truthy, i.e. non-empty), then the feed's channel-level title (when
truthy), then the configured source name. -/
theorem c7_channel_fallback (cfg : FeedConfig) (parsed : ParsedFeed) (item : RawItem) :
    (∀ s, item.creator = some s → s ≠ "" → (articleOf cfg parsed item).channel = s) ∧
    (∀ t, (item.creator = none ∨ item.creator = some "") → parsed.title = some t → t ≠ "" →
      (articleOf cfg parsed item).channel = t) ∧
    ((item.creator = none ∨ item.creator = some "") →
      (parsed.title = none ∨ parsed.title = some "") →
      (articleOf cfg parsed item).channel = cfg.name) := by
  refine ⟨fun s hs hne => ?_, fun t hc ht htne => ?_, fun hc ht => ?_⟩
  · simp [articleOf, jsOrStr, hs, hne]
  · rcases hc with hc | hc <;> simp [articleOf, jsOrStr, hc, ht, htne]
  · rcases hc with hc | hc <;> rcases ht with ht | ht <;> simp [articleOf, jsOrStr, hc, ht]

/-- C7 witness: creator takes priority; with no creator and no feed title the
configured source name is used. -/
theorem c7_witness :
    (articleOf gnews ({ title := some "Feed Title" } : ParsedFeed)
      ({ creator := some "Alice" } : RawItem)).channel = "Alice" ∧
    (articleOf gnews ({} : ParsedFeed) ({} : RawItem)).channel = gnews.name :=
  ⟨(c7_channel_fallback gnews { title := some "Feed Title" } { creator := some "Alice" }).1
      "Alice" rfl (by decide),
   (c7_channel_fallback gnews {} {}).2.2 (Or.inl rfl) (Or.inl rfl)⟩

/-- C9: the description used for the snippet is resolved by the priority
chain full-content field, else plain summary field, else description field,
else empty string ("present" read as JavaScript-truthy).  The hypothesis
records that the parser fills `contentEncoded` and `item["content:encoded"]`
from the same feed element, so the two reads of the full-content field agree. -/
theorem c9_description_priority (cfg : FeedConfig) (parsed : ParsedFeed) (item : RawItem)
    (h : item.contentEncoded = item.contentColon) :
    rawDesc item = specDescriptionChain item ∧
    (articleOf cfg parsed item).contentSnippet =
      String.mk ((stripTags (specDescriptionChain item).data).take 225 ++ "...".data) := by
  have hmain : rawDesc item = specDescriptionChain item := by
    unfold rawDesc specDescriptionChain
    rw [← h]
    cases hce : item.contentEncoded with
    | none => simp [jsOrStr]
    | some s =>
      by_cases hs : s = ""
      · cases hcs : item.contentSnippet with
        | none => simp [jsOrStr, hs]
        | some t => by_cases hts : t = "" <;> simp [jsOrStr, hs, hts]
      · simp [jsOrStr, hs]
  exact ⟨hmain, by simp [articleOf, hmain]⟩

/-- C9 witness: with no full-content field the summary is used. -/
theorem c9_witness :
    rawDesc ({ contentSnippet := some "hello" } : RawItem) =
      specDescriptionChain ({ contentSnippet := some "hello" } : RawItem) ∧
    (articleOf gnews {} ({ contentSnippet := some "hello" } : RawItem)).contentSnippet =
      String.mk
        ((stripTags (specDescriptionChain
          ({ contentSnippet := some "hello" } : RawItem)).data).take 225 ++ "...".data) :=
  c9_description_priority gnews {} { contentSnippet := some "hello" } rfl

/-- C10: an article's image is never the empty string — every falsy candidate
in the fallback chain (including an empty channel image URL) is skipped. -/
theorem c10_image_nonempty (cfg : FeedConfig) (parsed : ParsedFeed) (item : RawItem) :
    (articleOf cfg parsed item).image ≠ some "" ∧
    (parsed.imageUrl = some "" → channelImage parsed = extractImage parsed.description) := by
  constructor
  · intro h
    have h0 : (articleOf cfg parsed item).image =
        jsOrOpt (extractImage (some (rawDesc item)))
          (jsOrOpt (extractImage item.contentSnippet) (channelImage parsed)) := by
      simp [articleOf]
    have h1 := jsOrOpt_eq_empty _ _ (h0 ▸ h)
    have h2 := jsOrOpt_eq_empty _ _ h1
    have h3 : extractImage parsed.description = some "" := by
      unfold channelImage at h2
      exact jsOrOpt_eq_empty _ _ h2
    exact extractImage_ne_empty h3 rfl
  · intro h
    unfold channelImage
    rw [h]
    simp [jsOrOpt]

/-- C10 witness: concrete instance, with an empty channel image URL being
skipped. -/
theorem c10_witness :
    (articleOf gnews ({ imageUrl := some "" } : ParsedFeed) ({} : RawItem)).image ≠ some "" ∧
    channelImage ({ imageUrl := some "" } : ParsedFeed) =
      extractImage (({ imageUrl := some "" } : ParsedFeed)).description :=
  ⟨(c10_image_nonempty gnews { imageUrl := some "" } {}).1,
   (c10_image_nonempty gnews { imageUrl := some "" } {}).2 rfl⟩

/-- C4: image fallback order on the spec's synthetic scenario — description
image A wins over summary image B and channel image C; without A the summary
gives B; without A and B the channel gives C; with none of them the image is
absent. -/
theorem c4_image_fallback_order :
    (articleOf { name := "Src", url := "u" } { imageUrl := some "C" }
        { contentEncoded := some "<p><img src=\"A\"></p>",
          contentSnippet := some "sum <img src=\"B\"> here" }).image = some "A" ∧
    (articleOf { name := "Src", url := "u" } { imageUrl := some "C" }
        { contentEncoded := some "<p>no picture</p>",
          contentSnippet := some "sum <img src=\"B\"> here" }).image = some "B" ∧
    (articleOf { name := "Src", url := "u" } { imageUrl := some "C" }
        { contentEncoded := some "<p>no picture</p>",
          contentSnippet := some "plain summary" }).image = some "C" ∧
    (articleOf { name := "Src", url := "u" } {}
        { contentEncoded := some "<p>no picture</p>",
          contentSnippet := some "plain summary" }).image = none := by
  refine ⟨?_, ?_, ?_, ?_⟩ <;> decide

/-- C1: for a configured source whose fetch succeeds (and assuming the whole
batch succeeds, since one failure aborts everything), the bucket stored under
the source's name holds `min(10, upstream entry count)` articles, the `i`-th
article being the normalization of the `i`-th upstream entry — first entries,
upstream order, no sorting or filtering. -/
theorem c1_bounded_count (fetch : String → Except String ParsedFeed)
    (f : FeedConfig) (parsed : ParsedFeed)
    (hmem : f ∈ FEEDS)
    (hall : ∀ g ∈ FEEDS, ∃ p, fetch g.url = Except.ok p)
    (hok : fetch f.url = Except.ok parsed) :
    ∃ res, GET fetch = ApiResponse.ok res ∧
      List.lookup f.name res = some (processFeed f parsed) ∧
      (processFeed f parsed).length = min 10 parsed.items.length ∧
      ∀ i, i < 10 →
        (processFeed f parsed)[i]? = (parsed.items[i]?).map (articleOf f parsed) := by
  have hnd : (FEEDS.map FeedConfig.name).Nodup := by decide
  have hrun := runFeeds_all_ok fetch FEEDS [] hall (by simp) hnd
  refine ⟨successBuckets fetch FEEDS, ?_, ?_, ?_, ?_⟩
  · unfold GET
    rw [hrun]
    simp
  · exact lookup_successBuckets fetch FEEDS hnd f hmem parsed hok
  · simp [processFeed, List.length_take]
  · intro i hi
    simp only [processFeed]
    rw [List.getElem?_map, List.getElem?_take_of_lt hi]

/-- C1 witness: a world in which every configured URL yields an empty feed. -/
theorem c1_witness :
    ∃ res, GET (fun _ => Except.ok ({} : ParsedFeed)) = ApiResponse.ok res ∧
      List.lookup gnews.name res = some (processFeed gnews {}) ∧
      (processFeed gnews {}).length = min 10 ({} : ParsedFeed).items.length ∧
      ∀ i, i < 10 →
        (processFeed gnews {})[i]? =
          ((({} : ParsedFeed).items[i]?).map (articleOf gnews {})) :=
  c1_bounded_count (fun _ => Except.ok {}) gnews {} (by decide)
    (fun _ _ => ⟨{}, rfl⟩) rfl

/-- C5: when every configured source's fetch succeeds, the response is the
success shape and the result mapping's keys are exactly the configured source
names, in configuration order. -/
theorem c5_mapping_completeness (fetch : String → Except String ParsedFeed)
    (hall : ∀ g ∈ FEEDS, ∃ p, fetch g.url = Except.ok p) :
    ∃ res, GET fetch = ApiResponse.ok res ∧
      res.map Prod.fst = FEEDS.map FeedConfig.name := by
  have hnd : (FEEDS.map FeedConfig.name).Nodup := by decide
  have hrun := runFeeds_all_ok fetch FEEDS [] hall (by simp) hnd
  refine ⟨successBuckets fetch FEEDS, ?_, ?_⟩
  · unfold GET
    rw [hrun]
    simp
  · simp [successBuckets]

/-- C5 witness: a world in which every configured URL yields an empty feed. -/
theorem c5_witness :
    ∃ res, GET (fun _ => Except.ok ({} : ParsedFeed)) = ApiResponse.ok res ∧
      res.map Prod.fst = FEEDS.map FeedConfig.name :=
  c5_mapping_completeness (fun _ => Except.ok {}) (fun _ _ => ⟨{}, rfl⟩)

/-- C3: if any configured source's fetch throws, the whole call yields the
single error outcome — HTTP 500 whose body carries a thrown error's message —
and no success-shaped (partial) mapping is returned. -/
theorem c3_fail_fast (fetch : String → Except String ParsedFeed)
    (hex : ∃ f ∈ FEEDS, ∃ m, fetch f.url = Except.error m) :
    ∃ m, GET fetch = ApiResponse.err m ∧ (GET fetch).status = 500 ∧
      (∀ res, GET fetch ≠ ApiResponse.ok res) ∧
      ∃ f ∈ FEEDS, fetch f.url = Except.error m := by
  obtain ⟨m, hrun, f, hf, hm⟩ := runFeeds_err fetch FEEDS [] hex
  have hget : GET fetch = ApiResponse.err m := by
    unfold GET
    rw [hrun]
  refine ⟨m, hget, by rw [hget]; rfl, ?_, f, hf, hm⟩
  intro res h
  rw [hget] at h
  exact ApiResponse.noConfusion h

theorem startsWithCI_iff : ∀ (pat l : List Char),
    startsWithCI pat l = true ↔ ∃ w rest, l = w ++ rest ∧ w.map Char.toLower = pat := by
  intro pat
  induction pat with
  | nil =>
    intro l
    constructor
    · intro _
      exact ⟨[], l, rfl, rfl⟩
    · intro _
      rfl
  | cons p ps ih =>
    intro l
    cases l with
    | nil =>
      constructor
      · intro h
        simp [startsWithCI] at h
      · rintro ⟨w, rest, hl, hw⟩
        cases w with
        | nil => simp at hw
        | cons x w' => simp at hl
    | cons c cs =>
      constructor
      · intro h
        rw [show startsWithCI (p :: ps) (c :: cs) =
            (c.toLower == p && startsWithCI ps cs) from rfl] at h
        rw [Bool.and_eq_true] at h
        obtain ⟨hc, hrest⟩ := h
        obtain ⟨w', rest, hcs, hw'⟩ := (ih cs).mp hrest
        have hc' : c.toLower = p := by simpa using hc
        exact ⟨c :: w', rest, by rw [hcs]; rfl, by simp [hw', hc']⟩
      · rintro ⟨w, rest, hl, hw⟩
        cases w with
        | nil => simp at hw
        | cons x w' =>
          simp only [List.map_cons, List.cons.injEq] at hw
          obtain ⟨hx, hw'⟩ := hw
          simp only [List.cons_append, List.cons.injEq] at hl
          obtain ⟨hc, hcs⟩ := hl
          rw [show startsWithCI (p :: ps) (c :: cs) =
              (c.toLower == p && startsWithCI ps cs) from rfl]
          rw [Bool.and_eq_true]
          exact ⟨by simp [hc, hx], (ih cs).mpr ⟨w', rest, hcs, hw'⟩⟩

theorem takeWhile_append_all {p : Char → Bool} : ∀ (g r : List Char),
    (∀ c ∈ g, p c = true) → (g ++ r).takeWhile p = g ++ r.takeWhile p := by
  intro g
  induction g with
  | nil => intro r _; rfl
  | cons x g' ih =>
    intro r hg
    have hx : p x = true := hg x (List.mem_cons_self x g')
    simp only [List.cons_append, List.takeWhile_cons, hx, if_true]
    rw [ih r (fun c hc => hg c (List.mem_cons_of_mem x hc))]

theorem dropWhile_append_all {p : Char → Bool} : ∀ (g r : List Char),
    (∀ c ∈ g, p c = true) → (g ++ r).dropWhile p = r.dropWhile p := by
  intro g
  induction g with
  | nil => intro r _; rfl
  | cons x g' ih =>
    intro r hg
    have hx : p x = true := hg x (List.mem_cons_self x g')
    simp only [List.cons_append, List.dropWhile_cons, hx, if_true]
    exact ih r (fun c hc => hg c (List.mem_cons_of_mem x hc))

theorem dropWhile_head_false {p : Char → Bool} : ∀ (l : List Char) {c : Char}
    {cs : List Char}, l.dropWhile p = c :: cs → p c = false := by
  intro l
  induction l with
  | nil => intro c cs h; simp at h
  | cons x l' ih =>
    intro c cs h
    rw [List.dropWhile_cons] at h
    split at h
    · exact ih h
    · rename_i hx
      cases h
      simpa using hx

theorem matchSrcAt_some_iff {l u : List Char} : matchSrcAt l = some u ↔ srcOccAt l u := by
  constructor
  · intro h
    unfold matchSrcAt at h
    split at h
    · rename_i hsw
      split at h
      · exact absurd h (by simp)
      · rename_i q1 rest hdrop4
        split at h
        · rename_i hq
          split at h
          · exact absurd h (by simp)
          · rename_i q2 post hdw
            split at h
            · exact absurd h (by simp)
            · rename_i hemp
              obtain ⟨w, rest', hl, hw⟩ := (startsWithCI_iff srcPat l).mp hsw
              have hwlen : w.length = 4 := by
                have := congrArg List.length hw
                simpa [srcPat] using this
              have hrest' : rest' = q1 :: rest := by
                have hd : l.drop 4 = rest' := by rw [hl, ← hwlen, List.drop_left]
                exact hd.symm.trans hdrop4
              subst hrest'
              have hu : rest.takeWhile notQuote = u := Option.some.inj h
              have hrest : rest = u ++ q2 :: post := by
                rw [← hu, ← hdw]
                exact (List.takeWhile_append_dropWhile notQuote rest).symm
              have hq2 : isQuoteB q2 = true := by
                have := dropWhile_head_false rest hdw
                simpa [notQuote] using this
              have hufree : ∀ c ∈ u, isQuoteB c = false := by
                intro c hc
                rw [← hu] at hc
                have := List.mem_takeWhile_imp hc
                simpa [notQuote] using this
              have hune : u ≠ [] := by
                intro he
                apply hemp
                rw [hu, he]
                rfl
              exact ⟨w, q1, q2, post, by rw [hl, hrest], hw, hq, hq2, hune, hufree⟩
        · exact absurd h (by simp)
    · exact absurd h (by simp)
  · rintro ⟨sm, q1, q2, post, hl, hsm, hq1, hq2, hne, hfree⟩
    have hsw : startsWithCI srcPat l = true :=
      (startsWithCI_iff srcPat l).mpr ⟨sm, q1 :: (u ++ q2 :: post), hl, hsm⟩
    have hsmlen : sm.length = 4 := by
      have := congrArg List.length hsm
      simpa [srcPat] using this
    have hdrop : l.drop 4 = q1 :: (u ++ q2 :: post) := by
      rw [hl, ← hsmlen, List.drop_left]
    have hnq2 : notQuote q2 = false := by simp [notQuote, hq2]
    have htw : (u ++ q2 :: post).takeWhile notQuote = u := by
      rw [takeWhile_append_all u (q2 :: post) (fun c hc => by simp [notQuote, hfree c hc])]
      rw [List.takeWhile_cons, hnq2]
      simp
    have hdw : (u ++ q2 :: post).dropWhile notQuote = q2 :: post := by
      rw [dropWhile_append_all u (q2 :: post) (fun c hc => by simp [notQuote, hfree c hc])]
      rw [List.dropWhile_cons, hnq2]
      simp
    have hemp : u.isEmpty = false := by
      cases u with
      | nil => exact absurd rfl hne
      | cons a as => rfl
    unfold matchSrcAt
    rw [if_pos hsw, hdrop]
    show (if isQuoteB q1 = true then
        match (u ++ q2 :: post).dropWhile notQuote with
        | [] => none
        | _ :: _ =>
          if ((u ++ q2 :: post).takeWhile notQuote).isEmpty = true then none
          else some ((u ++ q2 :: post).takeWhile notQuote)
      else none) = some u
    rw [if_pos hq1, hdw]
    show (if ((u ++ q2 :: post).takeWhile notQuote).isEmpty = true then none
      else some ((u ++ q2 :: post).takeWhile notQuote)) = some u
    rw [htw, hemp]
    simp

theorem gapSearch_some {l u : List Char} : ∀ {n : Nat}, gapSearch l n = some u →
    ∃ k, k ≤ n ∧ matchSrcAt (l.drop k) = some u := by
  intro n
  induction n with
  | zero =>
    intro h
    exact ⟨0, Nat.le_refl 0, by simpa [List.drop_zero] using h⟩
  | succ n ih =>
    intro h
    unfold gapSearch at h
    split at h
    · rename_i u' heq
      cases h
      exact ⟨n + 1, Nat.le_refl _, heq⟩
    · obtain ⟨k, hk, hm⟩ := ih h
      exact ⟨k, Nat.le_succ_of_le hk, hm⟩

theorem gapSearch_isSome {l : List Char} : ∀ {n k : Nat} {u : List Char}, k ≤ n →
    matchSrcAt (l.drop k) = some u → ∃ v, gapSearch l n = some v := by
  intro n
  induction n with
  | zero =>
    intro k u hk hm
    have hk0 : k = 0 := Nat.le_zero.mp hk
    subst hk0
    exact ⟨u, by simp only [gapSearch]; simpa [List.drop_zero] using hm⟩
  | succ n ih =>
    intro k u hk hm
    cases hms : matchSrcAt (l.drop (n + 1)) with
    | some v => exact ⟨v, by simp [gapSearch, hms]⟩
    | none =>
      have hk' : k ≤ n := by
        rcases Nat.lt_or_ge k (n + 1) with hlt | hge
        · omega
        · exfalso
          have hke : k = n + 1 := by omega
          rw [hke, hms] at hm
          exact Option.noConfusion hm
      obtain ⟨v, hv⟩ := ih hk' hm
      exact ⟨v, by simp [gapSearch, hms, hv]⟩

theorem take_of_le_takeWhile {p : Char → Bool} {l : List Char} {k : Nat}
    (hk : k ≤ (l.takeWhile p).length) : ∀ c ∈ l.take k, p c = true := by
  intro c hc
  have heq : l.take k = (l.takeWhile p).take k := by
    conv_lhs => rw [← List.takeWhile_append_dropWhile p l]
    rw [List.take_append_eq_append_take]
    rw [Nat.sub_eq_zero_of_le hk]
    simp
  rw [heq] at hc
  exact List.mem_takeWhile_imp (List.mem_of_mem_take hc)

theorem tryMatchAt_some {l u : List Char} (h : tryMatchAt l = some u) : imgOccAt l u := by
  unfold tryMatchAt at h
  split at h
  · rename_i hsw
    obtain ⟨w, body, hl, hw⟩ := (startsWithCI_iff imgPat l).mp hsw
    have hwlen : w.length = 5 := by
      have := congrArg List.length hw
      simpa [imgPat] using this
    have hbody : l.drop 5 = body := by rw [hl, ← hwlen, List.drop_left]
    rw [hbody] at h
    obtain ⟨k, hk, hm⟩ := gapSearch_some h
    have hocc := matchSrcAt_some_iff.mp hm
    refine ⟨w, body.take k, body.drop k, ?_, hw, ?_, hocc⟩
    · rw [hl, List.append_assoc, List.take_append_drop]
    · intro c hc
      have := take_of_le_takeWhile hk c hc
      simpa using this
  · exact absurd h (by simp)

theorem tryMatchAt_isSome {l u : List Char} (h : imgOccAt l u) :
    ∃ v, tryMatchAt l = some v := by
  obtain ⟨tag, gap, rest, hl, htag, hgap, hsrc⟩ := h
  have hsw : startsWithCI imgPat l = true :=
    (startsWithCI_iff imgPat l).mpr ⟨tag, gap ++ rest, by rw [hl, List.append_assoc], htag⟩
  have htaglen : tag.length = 5 := by
    have := congrArg List.length htag
    simpa [imgPat] using this
  have hbody : l.drop 5 = gap ++ rest := by
    rw [hl, List.append_assoc, ← htaglen, List.drop_left]
  have hm : matchSrcAt ((gap ++ rest).drop gap.length) = some u := by
    rw [List.drop_left]
    exact matchSrcAt_some_iff.mpr hsrc
  have hk : gap.length ≤ ((gap ++ rest).takeWhile (fun c => c ≠ '>')).length := by
    rw [takeWhile_append_all gap rest (fun c hc => by simp [hgap c hc])]
    simp
  obtain ⟨v, hv⟩ := gapSearch_isSome hk hm
  refine ⟨v, ?_⟩
  unfold tryMatchAt
  rw [if_pos hsw, hbody]
  exact hv

theorem imgOccAt_nil {u : List Char} : ¬ imgOccAt [] u := by
  rintro ⟨tag, gap, rest, hl, htag, _, _⟩
  have htag0 : tag = [] := by
    have h' := hl.symm
    rw [List.append_assoc] at h'
    exact (List.append_eq_nil.mp h').1
  rw [htag0] at htag
  simp [imgPat] at htag

theorem findImg_some {l u : List Char} (h : findImg l = some u) :
    ∃ p, imgOccAt (l.drop p) u ∧ ∀ q, q < p → ∀ v, ¬ imgOccAt (l.drop q) v := by
  induction l with
  | nil => exact absurd h (by simp [findImg])
  | cons c rest ih =>
    unfold findImg at h
    split at h
    · rename_i u' heq
      cases h
      exact ⟨0, by simpa using tryMatchAt_some heq,
        fun q hq => absurd hq (Nat.not_lt_zero q)⟩
    · rename_i heq
      obtain ⟨p, hocc, hmin⟩ := ih h
      refine ⟨p + 1, by simpa [List.drop_succ_cons] using hocc, ?_⟩
      intro q hq v hv
      cases q with
      | zero =>
        simp only [List.drop_zero] at hv
        obtain ⟨w, hw⟩ := tryMatchAt_isSome hv
        rw [heq] at hw
        exact Option.noConfusion hw
      | succ q' =>
        rw [List.drop_succ_cons] at hv
        exact hmin q' (by omega) v hv

theorem findImg_isSome : ∀ (l : List Char) (p : Nat) (u : List Char),
    imgOccAt (l.drop p) u → ∃ v, findImg l = some v := by
  intro l
  induction l with
  | nil =>
    intro p u hocc
    rw [List.drop_nil] at hocc
    exact absurd hocc imgOccAt_nil
  | cons c rest ih =>
    intro p u hocc
    cases hm : tryMatchAt (c :: rest) with
    | some w => exact ⟨w, by simp [findImg, hm]⟩
    | none =>
      cases p with
      | zero =>
        rw [List.drop_zero] at hocc
        obtain ⟨w, hw⟩ := tryMatchAt_isSome hocc
        rw [hm] at hw
        exact Option.noConfusion hw
      | succ p' =>
        rw [List.drop_succ_cons] at hocc
        obtain ⟨v, hv⟩ := ih p' u hocc
        exact ⟨v, by simp [findImg, hm, hv]⟩

theorem ltOk_cons {c : Char} {t : List Char}
    (h1 : c = '<' → t[0]? = some '>' ∨ t[0]? = none) (h2 : LtOk t) : LtOk (c :: t) := by
  intro i hi
  cases i with
  | zero =>
    simp only [List.getElem?_cons_zero, Option.some.injEq] at hi
    rcases h1 hi with h | h
    · left
      simpa [List.getElem?_cons_succ] using h
    · right
      simpa [List.getElem?_cons_succ] using h
  | succ n =>
    simp only [List.getElem?_cons_succ] at hi ⊢
    exact h2 n hi

theorem stripTagsGo_ltOk : ∀ (l : List Char) (b : Bool), LtOk (stripTagsGo b l) := by
  intro l
  induction l with
  | nil =>
    intro b
    cases b <;> (intro i hi; simp [stripTagsGo] at hi)
  | cons c rest ih =>
    intro b
    cases b with
    | true =>
      by_cases hc : c = '>'
      · rw [show stripTagsGo true (c :: rest) = stripTagsGo false rest by
          simp [stripTagsGo, hc]]
        exact ih false
      · rw [show stripTagsGo true (c :: rest) = stripTagsGo true rest by
          simp [stripTagsGo, hc]]
        exact ih true
    | false =>
      by_cases hc : c = '<'
      · subst hc
        cases rest with
        | nil =>
          rw [show stripTagsGo false ['<'] = ['<'] by simp [stripTagsGo]]
          intro i hi
          cases i with
          | zero => right; rfl
          | succ n => simp at hi
        | cons d rest' =>
          by_cases hd : d = '>'
          · subst hd
            rw [show stripTagsGo false ('<' :: '>' :: rest') =
                '<' :: stripTagsGo false ('>' :: rest') by simp [stripTagsGo]]
            apply ltOk_cons
            · intro _
              left
              rw [show stripTagsGo false ('>' :: rest') = '>' :: stripTagsGo false rest' by
                simp [stripTagsGo]]
              exact List.getElem?_cons_zero
            · exact ih false
          · rw [show stripTagsGo false ('<' :: d :: rest') = stripTagsGo true (d :: rest') by
              simp [stripTagsGo, hd]]
            exact ih true
      · rw [show stripTagsGo false (c :: rest) = c :: stripTagsGo false rest by
          simp [stripTagsGo, hc]]
        apply ltOk_cons
        · intro h
          exact absurd h hc
        · exact ih false

theorem ltOk_take (l : List Char) (n : Nat) (h : LtOk l) : LtOk (l.take n) := by
  have hlen : (l.take n).length ≤ n := by
    rw [List.length_take]
    exact Nat.min_le_left _ _
  intro i hi
  by_cases hin : i < n
  · rw [List.getElem?_take_of_lt hin] at hi
    rcases h i hi with hg | hg
    · by_cases hin' : i + 1 < n
      · left
        rw [List.getElem?_take_of_lt hin']
        exact hg
      · right
        exact List.getElem?_eq_none_iff.mpr (by omega)
    · by_cases hin' : i + 1 < n
      · right
        rw [List.getElem?_take_of_lt hin']
        exact hg
      · right
        exact List.getElem?_eq_none_iff.mpr (by omega)
  · exfalso
    have hnone : (l.take n)[i]? = none := List.getElem?_eq_none_iff.mpr (by omega)
    rw [hnone] at hi
    exact Option.noConfusion hi

theorem getElem?_append_mid (a m b : List Char) (j : Nat) (hj : j < m.length) :
    (a ++ m ++ b)[a.length + j]? = m[j]? := by
  rw [List.append_assoc]
  rw [List.getElem?_append_right (by omega : a.length ≤ a.length + j)]
  rw [Nat.add_sub_cancel_left]
  exact List.getElem?_append_left hj

/-- C2 (amended): every contentSnippet has length at most 228, ends with the
literal "...", and contains no substring of the shape `<`, then a nonempty
run of characters that are neither `<` nor `>`, then `>` — i.e. no
non-degenerate HTML tag marker.  (The original claim's blanket "no `<...>`
substrings" fails: a literal `<>` pair survives the strip regex, see the
counterexample.) -/
theorem c2_snippet_shape (cfg : FeedConfig) (parsed : ParsedFeed) (item : RawItem) :
    (articleOf cfg parsed item).contentSnippet.length ≤ 228 ∧
    EndsWithL "...".data (articleOf cfg parsed item).contentSnippet.data ∧
    (∀ t, t ≠ [] → (∀ c ∈ t, c ≠ '<' ∧ c ≠ '>') →
      ¬ HasSub ('<' :: (t ++ ['>'])) (articleOf cfg parsed item).contentSnippet.data) := by
  have hdata : (articleOf cfg parsed item).contentSnippet.data =
      (stripTags (rawDesc item).data).take 225 ++ "...".data := by
    simp [articleOf]
  have hlen : (articleOf cfg parsed item).contentSnippet.length =
      ((stripTags (rawDesc item).data).take 225 ++ "...".data).length := by
    rw [String.length, hdata]
  refine ⟨?_, ?_, ?_⟩
  · rw [hlen, List.length_append, List.length_take]
    have h3 : ("...".data).length = 3 := rfl
    have hm : min 225 (stripTags (rawDesc item).data).length ≤ 225 := Nat.min_le_left _ _
    omega
  · exact ⟨(stripTags (rawDesc item).data).take 225, hdata⟩
  · intro t ht hfree hsub
    obtain ⟨a, b, heq⟩ := hsub
    rw [hdata] at heq
    set pre := (stripTags (rawDesc item).data).take 225 with hpre
    set mid := '<' :: (t ++ ['>']) with hmid
    obtain ⟨t0, ts, rfl⟩ : ∃ t0 ts, t = t0 :: ts := by
      cases t with
      | nil => exact absurd rfl ht
      | cons t0 ts => exact ⟨t0, ts, rfl⟩
    have htlen : 0 < (t0 :: ts).length := by simp
    have hmlen : mid.length = (t0 :: ts).length + 2 := by simp [hmid]
    -- the three character positions of the alleged tag, read off the split
    have h0 : (pre ++ "...".data)[a.length + 0]? = some '<' := by
      rw [heq, getElem?_append_mid a mid b 0 (by omega)]
      simp [hmid]
    have h1 : (pre ++ "...".data)[a.length + 1]? = some t0 := by
      rw [heq, getElem?_append_mid a mid b 1 (by omega)]
      simp [hmid]
    have h2 : (pre ++ "...".data)[a.length + (1 + (t0 :: ts).length)]? = some '>' := by
      rw [heq, getElem?_append_mid a mid b (1 + (t0 :: ts).length) (by omega)]
      rw [hmid]
      rw [show (1 + (t0 :: ts).length) = (t0 :: ts).length + 1 by omega]
      rw [List.getElem?_cons_succ]
      rw [List.getElem?_append_right (Nat.le_refl _)]
      simp
    -- the closing > cannot sit in the "..." suffix, so the whole tag sits in pre
    have hj2 : a.length + (1 + (t0 :: ts).length) < pre.length := by
      by_contra hge
      rw [List.getElem?_append_right (by omega)] at h2
      have := List.getElem?_mem h2
      simp at this
    have hi1 : a.length + 1 < pre.length := by omega
    have hpre0 : pre[a.length]? = some '<' := by
      have h0' : (pre ++ "...".data)[a.length]? = some '<' := by
        simpa using h0
      rw [List.getElem?_append_left (by omega : a.length < pre.length)] at h0'
      exact h0'
    have hpre1 : pre[a.length + 1]? = some t0 := by
      have := h1
      rw [List.getElem?_append_left hi1] at this
      exact this
    have hok : LtOk pre := ltOk_take _ _ (stripTagsGo_ltOk (rawDesc item).data false)
    rcases hok a.length hpre0 with hg | hg
    · rw [hpre1] at hg
      have ht0 : t0 ≠ '>' := (hfree t0 (List.mem_cons_self t0 ts)).2
      exact ht0 (Option.some.inj hg)
    · rw [hpre1] at hg
      exact Option.noConfusion hg

/-- C2 counterexample: the entry whose description is "a<>b>c" yields the
contentSnippet "a<>b>c...", which contains the substring "<>b>" — a substring
that starts with `<` and ends with `>`, refuting "contentSnippet contains no
HTML tag markers (no `<...>` substrings)" as stated. -/
theorem c2_counterexample :
    (articleOf { name := "Src", url := "u" } ({} : ParsedFeed)
        ({ description := some "a<>b>c" } : RawItem)).contentSnippet = "a<>b>c..." ∧
    HasSub ('<' :: (['>', 'b'] ++ ['>']))
      (articleOf { name := "Src", url := "u" } ({} : ParsedFeed)
        ({ description := some "a<>b>c" } : RawItem)).contentSnippet.data :=
  ⟨by decide, ⟨['a'], ['c', '.', '.', '.'], by decide⟩⟩

/-- C2 witness: the amended snippet shape at a concrete article. -/
theorem c2_witness :
    (articleOf gnews ({} : ParsedFeed)
      ({ description := some "a<>b>c" } : RawItem)).contentSnippet.length ≤ 228 ∧
    EndsWithL "...".data
      (articleOf gnews ({} : ParsedFeed)
        ({ description := some "a<>b>c" } : RawItem)).contentSnippet.data ∧
    ¬ HasSub ('<' :: (['x'] ++ ['>']))
      (articleOf gnews ({} : ParsedFeed)
        ({ description := some "a<>b>c" } : RawItem)).contentSnippet.data :=
  ⟨(c2_snippet_shape gnews {} { description := some "a<>b>c" }).1,
   (c2_snippet_shape gnews {} { description := some "a<>b>c" }).2.1,
   (c2_snippet_shape gnews {} { description := some "a<>b>c" }).2.2 ['x']
     (by decide) (by decide)⟩

/-- C3 witness: a world in which every fetch throws with message "boom". -/
theorem c3_witness :
    ∃ m, GET (fun _ => (Except.error "boom" : Except String ParsedFeed)) =
        ApiResponse.err m ∧
      (GET (fun _ => (Except.error "boom" : Except String ParsedFeed))).status = 500 ∧
      (∀ res, GET (fun _ => (Except.error "boom" : Except String ParsedFeed)) ≠
        ApiResponse.ok res) ∧
      ∃ f ∈ FEEDS,
        (fun _ => (Except.error "boom" : Except String ParsedFeed)) f.url =
          Except.error m :=
  c3_fail_fast (fun _ => Except.error "boom") ⟨gnews, by decide, "boom", rfl⟩

/-- C8: `extractImage` returns `undefined` on an absent or empty input;
it returns a URL exactly when the image pattern (case-insensitive `<img `,
a run of non-`>` characters, `src=`, a quote, a nonempty quote-free capture,
a quote) occurs somewhere in the input; and the returned value is a capture
of the pattern at its leftmost matching start position — no earlier position
carries any match. -/
theorem c8_extract_image_spec :
    extractImage none = none ∧
    extractImage (some "") = none ∧
    (∀ s : String,
      (∃ u, extractImage (some s) = some u) ↔ ∃ p u, imgOccAt (s.data.drop p) u) ∧
    (∀ s u, extractImage (some s) = some u →
      ∃ p, imgOccAt (s.data.drop p) u.data ∧
        ∀ q, q < p → ∀ v, ¬ imgOccAt (s.data.drop q) v) := by
  refine ⟨rfl, rfl, ?_, ?_⟩
  · intro s
    constructor
    · rintro ⟨u, hu⟩
      by_cases hs : s = ""
      · rw [hs] at hu
        exact absurd hu (by simp [extractImage])
      · simp only [extractImage, if_neg hs] at hu
        cases hf : findImg s.data with
        | none => rw [hf] at hu; exact absurd hu (by simp)
        | some w =>
          obtain ⟨p, hocc, _⟩ := findImg_some hf
          exact ⟨p, w, hocc⟩
    · rintro ⟨p, u, hocc⟩
      by_cases hs : s = ""
      · exfalso
        rw [hs] at hocc
        rw [show ("" : String).data = [] from rfl, List.drop_nil] at hocc
        exact imgOccAt_nil hocc
      · obtain ⟨v, hv⟩ := findImg_isSome s.data p u hocc
        exact ⟨String.mk v, by simp [extractImage, hs, hv]⟩
  · intro s u hu
    by_cases hs : s = ""
    · rw [hs] at hu
      exact absurd hu (by simp [extractImage])
    · simp only [extractImage, if_neg hs] at hu
      cases hf : findImg s.data with
      | none => rw [hf] at hu; exact absurd hu (by simp)
      | some w =>
        rw [hf] at hu
        simp only [Option.map] at hu
        have hw : String.mk w = u := Option.some.inj hu
        have hd : u.data = w := by rw [← hw]
        obtain ⟨p, hocc, hmin⟩ := findImg_some hf
        rw [hd]
        exact ⟨p, hocc, hmin⟩

/-- C8 witness: a concrete match, found at the leftmost matching position. -/
theorem c8_witness :
    extractImage none = none ∧
    ∃ p, imgOccAt (("x<img src=\"u\">".data).drop p) ("u".data) ∧
      ∀ q, q < p → ∀ v, ¬ imgOccAt (("x<img src=\"u\">".data).drop q) v :=
  ⟨c8_extract_image_spec.1,
   c8_extract_image_spec.2.2.2 "x<img src=\"u\">" "u" (by decide)⟩

end TrendingNews
